import Mathlib

/-
Verification of the notification pipeline in src/notify_canada_interns.py.

Shallow embedding conventions:
- Python strings are modelled as `List Char` (called `Str` below);
- Python dicts (insertion ordered, string keyed) are association lists
  with Python update semantics (`pyInsert`, `getD`);
- Python sets of strings are `Finset Str`;
- the persisted notified.json file is a `StoreFile` (missing, corrupt, or
  a JSON list of strings);
- library calls of the source (html.unescape, BeautifulSoup tag stripping
  and anchor search, re searches) are modelled by executable scanners that
  reproduce their behaviour on the relevant input class; each model is
  documented at its definition.
-/

set_option autoImplicit false

namespace NotifyIntern

abbrev Str := List Char

/-- Python whitespace for str.strip and the regex class \s (ASCII range). -/
def pySpace (c : Char) : Bool :=
  c == ' ' || c == '\t' || c == '\n' || c == '\r' || c == '\x0b' || c == '\x0c'

/-- Python str.strip(): drop whitespace from both ends. -/
def pyStrip (s : Str) : Str :=
  ((s.dropWhile pySpace).reverse.dropWhile pySpace).reverse

/-- Python str.rstrip(): drop trailing whitespace. -/
def pyRstrip (s : Str) : Str :=
  (s.reverse.dropWhile pySpace).reverse

/-- Python str.strip("|"): drop leading and trailing pipe characters. -/
def stripPipes (s : Str) : Str :=
  ((s.dropWhile (· == '|')).reverse.dropWhile (· == '|')).reverse

/-- Python str.lower (per character). -/
def lowerStr (s : Str) : Str := s.map Char.toLower

/-- Python substring test (`needle in hay`). -/
def containsSub (needle : Str) : Str → Bool
  | [] => needle.isPrefixOf ([] : Str)
  | c :: rest => needle.isPrefixOf (c :: rest) || containsSub needle rest

/-- Word characters of the regex class \w (ASCII range). -/
def isWordCh (c : Char) : Bool := c.isAlphanum || c == '_'

/-- Named and numeric character references recognised by the model of
    Python html.unescape, longest first, with Python's optional-semicolon
    behaviour. The real table is much larger; references outside this
    table pass through unchanged, which agrees with Python on every string
    appearing in this development. -/
def entityTable : List (Str × Char) :=
  [("amp;".toList, '&'), ("amp".toList, '&'),
   ("lt;".toList, '<'), ("lt".toList, '<'),
   ("gt;".toList, '>'), ("gt".toList, '>'),
   ("quot;".toList, '"'), ("quot".toList, '"'),
   ("#39;".toList, '\''), ("#39".toList, '\'')]

/-- Try to read one character reference at the head of the string,
    returning the replacement character and the number of consumed
    characters. -/
def entityAt (rest : Str) : Option (Char × Nat) :=
  (entityTable.find? fun e => e.1.isPrefixOf rest).map fun e => (e.2, e.1.length)

/-- Fueled scanner for the html.unescape model; each step consumes one
    fuel unit and at least one character, so string-length fuel always
    suffices. -/
def htmlUnescapeF : Nat → Str → Str
  | 0, s => s
  | _ + 1, [] => []
  | n + 1, c :: rest =>
    if c == '&' then
      match entityAt rest with
      | some (d, m) => d :: htmlUnescapeF n (rest.drop m)
      | none => '&' :: htmlUnescapeF n rest
    else
      c :: htmlUnescapeF n rest

/-- Model of Python html.unescape (see entityTable): scan left to right,
    replacing each recognised character reference after an ampersand; the
    replacement text is not rescanned. -/
def htmlUnescape (s : Str) : Str := htmlUnescapeF s.length s

/-- normalize_url from the source: html.unescape then str.strip. -/
def normalize_url (url : Str) : Str := pyStrip (htmlUnescape url)

/-- Skip the remainder of a markup tag: drop up to and including the next
    closing angle bracket. -/
def dropTag : Str → Str
  | [] => []
  | c :: rest => if c == '>' then rest else dropTag rest

theorem dropTag_length_le (s : Str) : (dropTag s).length ≤ s.length := by
  induction s with
  | nil => simp [dropTag]
  | cons c rest ih =>
    simp only [dropTag]
    split
    · simp
    · exact Nat.le_succ_of_le ih

/-- Fueled scanner for the text segments of a markup fragment; each step
    consumes one fuel unit and at least one character. -/
def textSegmentsF : Nat → Str → List Str
  | 0, _ => [[]]
  | _ + 1, [] => [[]]
  | n + 1, c :: rest =>
    if c == '<' then
      [] :: textSegmentsF n (dropTag rest)
    else
      match textSegmentsF n rest with
      | seg :: segs => (c :: seg) :: segs
      | [] => [[c]]

/-- The text segments of a markup fragment: maximal runs of characters
    outside tags, in order. -/
def textSegments (s : Str) : List Str := textSegmentsF s.length s

/-- Model of BeautifulSoup(text).get_text(strip=True) as used by
    strip_html_tags in the source: remove tags, decode character
    references in each text segment, strip each segment, concatenate. -/
def strip_html_tags (text : Str) : Str :=
  ((textSegments text).map fun seg => pyStrip (htmlUnescape seg)).flatten

/-- location_is_canada from the source: empty text disqualifies; otherwise
    the tag-stripped lowercase text must contain the literal substring. -/
def location_is_canada (location_text : Str) : Bool :=
  if location_text == [] then false
  else containsSub "canada".toList (lowerStr (strip_html_tags location_text))

/-! ## Link extraction (extract_link_from_cell and its five strategies) -/

/-- Case-insensitive absolute-URL test of the source
    (href.lower().startswith on the two schemes). -/
def isAbsHttp (s : Str) : Bool :=
  "http://".toList.isPrefixOf (lowerStr s) || "https://".toList.isPrefixOf (lowerStr s)

/-- Case-sensitive scheme test used by the raw regular expressions of the
    source, which spell the scheme in lowercase. -/
def absHttpCS (s : Str) : Bool :=
  "http://".toList.isPrefixOf s || "https://".toList.isPrefixOf s

/-- The aggregator redirect marker of the source
    ("simplify.jobs/p/" in href.lower()). -/
def isAggregator (h : Str) : Bool :=
  containsSub "simplify.jobs/p/".toList (lowerStr h)

/-- Take characters up to (excluding) the given delimiter. -/
def takeUntil (q : Char) : Str → Str
  | [] => []
  | c :: rest => if c == q then [] else c :: takeUntil q rest

/-- Characters of the current tag, up to the closing angle bracket. -/
def beforeGt : Str → Str
  | [] => []
  | c :: rest => if c == '>' then [] else c :: beforeGt rest

/-- Find an href attribute value (double or single quoted) inside the
    characters of one tag. -/
def findHrefIn : Str → Option Str
  | [] => none
  | c :: rest =>
    if "href=\"".toList.isPrefixOf (c :: rest) then
      some (takeUntil '"' ((c :: rest).drop 6))
    else if ("href=".toList ++ ['\'']).isPrefixOf (c :: rest) then
      some (takeUntil '\'' ((c :: rest).drop 6))
    else findHrefIn rest

/-- Model of BeautifulSoup find_all("a", href=True) on the serialized
    cell markup the pipeline feeds it: the href values of anchor tags, in
    document order, entity-decoded as BeautifulSoup decodes attribute
    values. Anchors without an href attribute are not reported. -/
def findAnchorHrefs : Str → List Str
  | [] => []
  | c :: rest =>
    if "<a ".toList.isPrefixOf (c :: rest) then
      match findHrefIn (beforeGt (rest.drop 2)) with
      | some v => htmlUnescape v :: findAnchorHrefs rest
      | none => findAnchorHrefs rest
    else findAnchorHrefs rest

/-- Anchor hrefs after the per-anchor str.strip of the source loops. -/
def anchorHrefsStripped (cell : Str) : List Str :=
  (findAnchorHrefs cell).map pyStrip

/-- Greedy [^\s)]+ token followed by a required closing parenthesis, as in
    the markdown-link regular expression of the source. -/
def mdUrl (s : Str) : Option Str :=
  let u := s.takeWhile fun c => !pySpace c && c != ')'
  if (s.drop u.length).head? == some ')' && u != [] then some u else none

/-- After an opening square bracket: the lazy dot-star of the
    markdown-link regular expression, which may not cross a newline,
    searching for a bracket-parenthesis continuation holding an absolute
    URL. -/
def mdAfterBracket : Str → Option Str
  | [] => none
  | c :: rest =>
    if c == '\n' then none
    else if c == ']' then
      match rest with
      | '(' :: r2 =>
        if absHttpCS r2 then
          match mdUrl r2 with
          | some u => some u
          | none => mdAfterBracket rest
        else mdAfterBracket rest
      | _ => mdAfterBracket rest
    else mdAfterBracket rest

/-- Leftmost match of the markdown-link regular expression
    of the source (bracket, lazy text, parenthesised absolute URL). -/
def mdLinkSearch : Str → Option Str
  | [] => none
  | c :: rest =>
    if c == '[' then
      match mdAfterBracket rest with
      | some u => some u
      | none => mdLinkSearch rest
    else mdLinkSearch rest

/-- Leftmost match of the raw href-attribute regular expression of the
    source: href=, an opening quote of either kind, an absolute URL of
    non-quote characters, and a closing quote of either kind. -/
def hrefAttrSearch : Str → Option Str
  | [] => none
  | c :: rest =>
    if "href=".toList.isPrefixOf (c :: rest) then
      match (c :: rest).drop 5 with
      | q :: r2 =>
        if (q == '"' || q == '\'') && absHttpCS r2 then
          let u := r2.takeWhile fun ch => ch != '"' && ch != '\''
          if u.length < r2.length then some u else hrefAttrSearch rest
        else hrefAttrSearch rest
      | [] => hrefAttrSearch rest
    else hrefAttrSearch rest

/-- Leftmost match of the bare-URL regular expression of the source: an
    absolute URL token with at least one character beyond the scheme,
    stopping at whitespace, closing parentheses and closing brackets. -/
def bareUrlSearch : Str → Option Str
  | [] => none
  | c :: rest =>
    if absHttpCS (c :: rest) then
      let u := (c :: rest).takeWhile fun ch => !pySpace ch && ch != ')' && ch != ']'
      if u.length > (if "https://".toList.isPrefixOf (c :: rest) then 8 else 7) then some u
      else bareUrlSearch rest
    else bareUrlSearch rest

/-- extract_link_from_cell from the source, following its control flow:
    empty cell fails; anchors with a non-aggregator absolute href are
    preferred, then any absolute anchor href, then the markdown-link
    regular expression, then the raw href-attribute regular expression
    (whose capture the source unescapes once more before normalizing),
    then any bare absolute URL token. -/
def extract_link_from_cell (cell : Str) : Option Str :=
  if cell == [] then none
  else
    let anchors := anchorHrefsStripped cell
    match anchors.find? fun h => h != [] && isAbsHttp h && !isAggregator h with
    | some h => some (normalize_url h)
    | none =>
      match anchors.find? fun h => h != [] && isAbsHttp h with
      | some h => some (normalize_url h)
      | none =>
        match mdLinkSearch cell with
        | some u => some (normalize_url u)
        | none =>
          match hrefAttrSearch cell with
          | some u => some (normalize_url (htmlUnescape u))
          | none =>
            match bareUrlSearch cell with
            | some u => some (normalize_url u)
            | none => none

/-- Strategy (a) of the spec: first anchor href that is absolute and not
    an aggregator redirect. -/
def stratA (cell : Str) : Option Str :=
  ((anchorHrefsStripped cell).find? fun h =>
    h != [] && isAbsHttp h && !isAggregator h).map normalize_url

/-- Strategy (b) of the spec: first absolute anchor href. -/
def stratB (cell : Str) : Option Str :=
  ((anchorHrefsStripped cell).find? fun h => h != [] && isAbsHttp h).map normalize_url

/-- Strategy (c) of the spec: markdown bracket-link URL. -/
def stratC (cell : Str) : Option Str :=
  (mdLinkSearch cell).map normalize_url

/-- Strategy (d) of the spec: raw href-attribute URL (unescaped once
    before normalization, as in the source). -/
def stratD (cell : Str) : Option Str :=
  (hrefAttrSearch cell).map fun u => normalize_url (htmlUnescape u)

/-- Strategy (e) of the spec: any bare absolute http(s) token. -/
def stratE (cell : Str) : Option Str :=
  (bareUrlSearch cell).map normalize_url

/-- The ordered strategy list of the spec. -/
def linkStrategies : List (Str → Option Str) :=
  [stratA, stratB, stratC, stratD, stratE]

/-! ## Recency (age) filter -/

/-- Word boundary on the right of a match: end of string or a following
    non-word character. -/
def rBoundary : Str → Bool
  | [] => true
  | c :: _ => !isWordCh c

/-- The tail of the age regular expression after the initial zero:
    optional whitespace, then d, day or days followed by a word boundary
    (matching day cannot be followed by s at a boundary, so the three
    alternatives cover the regular expression exactly). -/
def ageTail (s : Str) : Bool :=
  (['d'].isPrefixOf (s.dropWhile pySpace) &&
    rBoundary ((s.dropWhile pySpace).drop 1)) ||
  (['d', 'a', 'y'].isPrefixOf (s.dropWhile pySpace) &&
    rBoundary ((s.dropWhile pySpace).drop 3)) ||
  (['d', 'a', 'y', 's'].isPrefixOf (s.dropWhile pySpace) &&
    rBoundary ((s.dropWhile pySpace).drop 4))

/-- Left word-boundary condition: no preceding character, or a preceding
    non-word character. -/
def leftOk (prev : Option Char) : Bool := prev.all fun p => !isWordCh p

/-- Scanner for re.search of the age pattern, carrying the previous
    character for the left word boundary. -/
def ageScan (prev : Option Char) : Str → Bool
  | [] => false
  | c :: rest =>
    (leftOk prev && c == '0' && ageTail rest) || ageScan (some c) rest

/-- re.search of the age pattern of the source on an already-lowercased
    string. -/
def ageRegexSearch (s : Str) : Bool := ageScan none s

/-- The age gate of the main loop: empty age text disqualifies, otherwise
    the lowercased text must match the age pattern. -/
def agePasses (age : Str) : Bool :=
  !(age == []) && ageRegexSearch (lowerStr age)

/-- The spec reading of the recency filter: the text contains, between
    word boundaries, a zero followed by optional whitespace and one of
    the literal forms d, day, days. -/
def AgeSpec (s : Str) : Prop :=
  ∃ pre ws k post,
    s = pre ++ '0' :: (ws ++ k ++ post) ∧
    (pre.getLast?.all fun p => !isWordCh p) = true ∧
    (∀ c ∈ ws, pySpace c = true) ∧
    (k = ['d'] ∨ k = ['d', 'a', 'y'] ∨ k = ['d', 'a', 'y', 's']) ∧
    (post.head?.all fun q => !isWordCh q) = true

/-! ## Table parsing -/

/-- Python dict update semantics on an association list: an existing key
    is overwritten in place, a new key is appended. -/
def pyInsert (row : List (Str × Str)) (k v : Str) : List (Str × Str) :=
  if row.any fun p => p.1 == k then
    row.map fun p => if p.1 == k then (k, v) else p
  else row ++ [(k, v)]

/-- A row record: Python dict from column header to cell content. -/
abbrev Row := List (Str × Str)

/-- Python dict.get with a default. -/
def getD (item : Row) (k : Str) (d : Str) : Str :=
  match item.find? fun p => p.1 == k with
  | some p => p.2
  | none => d

/-- Python dict.get against a possibly-unresolved header (the source
    passes headers that may be None; None is not a key, so the default
    is returned). -/
def getOpt (item : Row) (k : Option Str) : Str :=
  match k with
  | some k₀ => getD item k₀ []
  | none => []

/-- Python str.split on a separator character (an empty string yields one
    empty field). -/
def pySplitOn (sep : Char) : Str → List Str
  | [] => [[]]
  | c :: rest =>
    if c == sep then [] :: pySplitOn sep rest
    else
      match pySplitOn sep rest with
      | s :: ss => (c :: s) :: ss
      | [] => [[c]]

/-- The per-line cleaning of parse_markdown_table:
    strip, strip pipes, strip. -/
def cleanLine (ln : Str) : Str := pyStrip (stripPipes (pyStrip ln))

/-- Consume one whitespace-dashes-whitespace chunk of the separator
    pattern, returning the remainder. -/
def sepChunk (s : Str) : Option Str :=
  let s1 := s.dropWhile pySpace
  let d := s1.takeWhile (· == '-')
  if d == [] then none else some ((s1.drop d.length).dropWhile pySpace)

/-- Fueled loop for the repeated pipe-chunk groups of the separator
    pattern (each step consumes at least two characters, so the fuel
    below never runs out on a match). -/
def sepLoopF : Nat → Str → Bool
  | _, [] => true
  | 0, _ => false
  | Nat.succ n, c :: rest =>
    if c == '|' then
      match sepChunk rest with
      | some r => sepLoopF n r
      | none => false
    else false

/-- The anchored separator-line pattern of parse_markdown_table: optional
    whitespace, dashes, optional whitespace, then zero or more
    pipe-separated dash groups, to the end of the line. -/
def sepMatch (s : Str) : Bool :=
  match sepChunk s with
  | some r => sepLoopF (r.length + 1) r
  | none => false

/-- One output record of parse_markdown_table: positional mapping of
    headers to cells. -/
def rowDict (headers cells : List Str) : Row :=
  (headers.zip cells).foldl (fun r p => pyInsert r p.1 p.2) []

/-- Pad a cell list with empty strings up to the header count. -/
def padTo (n : Nat) (cells : List Str) : List Str :=
  cells ++ List.replicate (n - cells.length) []

/-- parse_markdown_table from the source: keep non-blank lines, clean
    them, take the first as the header row, consume a matching separator
    line, split the rest on pipes, pad short rows, and map headers to
    cells positionally. -/
def parse_markdown_table (table_lines : List Str) : List Row :=
  let cleaned := (table_lines.filter fun ln => pyStrip ln != []).map cleanLine
  if cleaned.length < 2 then []
  else
    let header_row := cleaned.headD []
    let data_rows := if sepMatch (cleaned.tail.headD []) then cleaned.drop 2 else cleaned.drop 1
    let headers := (pySplitOn '|' header_row).map pyStrip
    data_rows.map fun row =>
      let cells := (pySplitOn '|' row).map pyStrip
      rowDict headers (padTo headers.length cells)

/-! ## Section locator and pipe-table extractor -/

/-- Python str.splitlines for newline-separated text. -/
def splitLines : Str → List Str
  | [] => []
  | c :: rest =>
    if c == '\n' then [] :: splitLines rest
    else
      match splitLines rest with
      | l :: ls => (c :: l) :: ls
      | [] => [[c]]

/-- find_section_markdown from the source, returned as a line list: the
    lines from the first line containing any keyword (case-insensitive)
    up to, exclusive, the next line starting with a heading marker. -/
def find_section_lines (md : Str) (kws : List Str) : Option (List Str) :=
  let lines := splitLines md
  match lines.findIdx? fun ln => kws.any fun kw => containsSub (lowerStr kw) (lowerStr ln) with
  | none => none
  | some i =>
    let rest := lines.drop (i + 1)
    let len :=
      match rest.findIdx? fun ln => "#".toList.isPrefixOf ln with
      | some j => j + 1
      | none => rest.length + 1
    some ((lines.drop i).take len)

/-- A line opens or continues a pipe table when its stripped text starts
    with a pipe. -/
def startsPipe (ln : Str) : Bool := "|".toList.isPrefixOf (pyStrip ln)

/-- The contiguous pipe lines after the table started. -/
def takePipeRun : List Str → List Str
  | [] => []
  | ln :: rest => if startsPipe ln then pyRstrip ln :: takePipeRun rest else []

/-- extract_first_markdown_table from the source: the first contiguous
    run of pipe lines, each right-stripped; scanning stops at the first
    non-pipe line after the run started. -/
def extract_first_mdtable : List Str → List Str
  | [] => []
  | ln :: rest =>
    if startsPipe ln then pyRstrip ln :: takePipeRun rest
    else extract_first_mdtable rest

/-! ## Row normalizer -/

/-- The markup heuristic of build_normalized_rows: the value contains an
    opening bracket, a closing bracket and an href token. -/
def hasHrefMarkup (v : Str) : Bool :=
  containsSub "<".toList v && containsSub ">".toList v && containsSub "href".toList v

/-- The raw-variant key suffix. -/
def rawSuffix : Str := "_raw".toList

/-- One item step of build_normalized_rows: both branches store the
    stripped text under the original key and the original value under the
    suffixed key, differing only in insertion order. -/
def normStep (row : Row) (p : Str × Str) : Row :=
  if hasHrefMarkup p.2 then
    pyInsert (pyInsert row (p.1 ++ rawSuffix) p.2) p.1 (strip_html_tags p.2)
  else
    pyInsert (pyInsert row p.1 (strip_html_tags p.2)) (p.1 ++ rawSuffix) p.2

/-- The NormalizedRow of one RawRow. -/
def normalizeRow (r : Row) : Row := r.foldl normStep []

/-- build_normalized_rows from the source. -/
def build_normalized_rows (raw_rows : List Row) : List Row :=
  raw_rows.map normalizeRow

/-! ## NotifiedSet store -/

/-- The persisted notified.json file: missing, unreadable or non-list
    content, or a JSON list of strings. -/
inductive StoreFile where
  | missing
  | corrupt
  | data (l : List Str)
deriving DecidableEq

/-- load_notified from the source: a missing or corrupt store yields the
    empty set, a list is normalized elementwise into a set. -/
def load_notified : StoreFile → Finset Str
  | .missing => ∅
  | .corrupt => ∅
  | .data l => (l.map normalize_url).toFinset

/-- Sorting a multiset of strings into a list, by insertion sort under
    the lexicographic order (well defined because two sorted permutations
    are equal). -/
def sortedKeys (s : Multiset Str) : List Str :=
  Quotient.lift (List.insertionSort (· ≤ ·))
    (fun a b hab =>
      List.eq_of_perm_of_sorted
        (((List.perm_insertionSort _ a).trans hab).trans
          (List.perm_insertionSort _ b).symm)
        (List.sorted_insertionSort _ a) (List.sorted_insertionSort _ b)) s

/-- save_notified from the source: the set is normalized elementwise and
    written as a sorted list (Python set iteration order is arbitrary,
    which the multiset image quotients out exactly). -/
def save_notified (notified : Finset Str) : StoreFile :=
  .data (sortedKeys (notified.val.map normalize_url))

/-! ## Posting filter, identity resolver and notification driver -/

/-- The resolved column headers of the main loop. -/
structure Hdrs where
  app : Option Str
  loc : Option Str
  comp : Str
  role : Str
  age : Option Str
deriving DecidableEq

/-- Case-insensitive header containment used by the header lookups. -/
def lowerContains (sub h : Str) : Bool := containsSub sub (lowerStr h)

/-- The human headers of the main loop: keys of the first normalized row
    that do not end with the raw suffix. -/
def humanHeaders (normalized_rows : List Row) : List Str :=
  ((normalized_rows.headD []).map Prod.fst).filter fun h => !(rawSuffix.isSuffixOf h)

/-- The header resolution of the main loop, including the positional
    fallbacks for the company and role columns. -/
def resolveHdrs (normalized_rows : List Row) : Hdrs :=
  let human := humanHeaders normalized_rows
  { app := human.find? fun h =>
      lowerContains "apply".toList h || lowerContains "application".toList h
    loc := human.find? fun h => lowerContains "location".toList h
    comp := ((human.find? fun h => lowerContains "company".toList h).getD
      (human.headD "Company".toList))
    role := ((human.find? fun h =>
      lowerContains "role".toList h || lowerContains "position".toList h).getD
      (human.tail.headD "Role".toList))
    age := human.find? fun h => lowerContains "age".toList h }

/-- The continuation glyph of the source. -/
def glyph : Str := ['↳']

/-- Python truthiness of the previous-company variable (None and the
    empty string are falsy). -/
def pcTruthy : Option Str → Bool
  | none => false
  | some p => p != []

/-- The effective (display) company of a row: the previous primary
    company for a continuation row, the row's own stripped company text
    otherwise. -/
def effCompany (cs : Str) (pc : Option Str) : Str :=
  if cs == glyph && pcTruthy pc then pc.getD [] else cs

/-- The previous-company update of the main loop. -/
def stepPC (pc : Option Str) (cs : Str) : Option Str :=
  if cs != [] && cs != glyph then some cs else pc

/-- The last-valid-link update of the main loop (primary rows with a link
    of their own). -/
def stepLL (ll : Option Str) (cs : Str) (cur : Option Str) : Option Str :=
  if cs != [] && cs != glyph && cur.isSome then cur else ll

/-- The stripped company text of a row (empty company cell short-circuits
    the stripping). -/
def companyStripped (hdrs : Hdrs) (item : Row) : Str :=
  let raw := getD item hdrs.comp []
  if raw == [] then [] else pyStrip (strip_html_tags raw)

/-- The row's own extracted link: the raw application cell is preferred,
    then the plain-text application cell. -/
def currentLinkOf (hdrs : Hdrs) (item : Row) : Option Str :=
  let appRawVal :=
    match hdrs.app with
    | some a => getD item (a ++ rawSuffix) []
    | none => []
  (extract_link_from_cell appRawVal).orElse fun _ =>
    extract_link_from_cell (getD item (hdrs.app.getD []) [])

/-- The location and age gates of the main loop. -/
def rowQualifies (hdrs : Hdrs) (item : Row) : Bool :=
  location_is_canada (getOpt item hdrs.loc) && agePasses (getOpt item hdrs.age)

/-- The per-row resolution of the identity logic: updated contexts,
    effective company, resolved link, dedupe key. -/
structure Resolution where
  pc : Option Str
  ll : Option Str
  company : Str
  link : Option Str
  key : Str
deriving DecidableEq

/-- The identity resolution of one qualifying row, following the source
    order: update the previous-company and last-link contexts, fall back
    to the last link when the row has none, and key by the normalized
    link or else by the normalized company-role-location composite. -/
def resolveRow (hdrs : Hdrs) (pc0 ll0 : Option Str) (item : Row) : Resolution :=
  let cur := currentLinkOf hdrs item
  let cs := companyStripped hdrs item
  let pc := stepPC pc0 cs
  let ll := stepLL ll0 cs cur
  let link := cur.orElse fun _ => ll
  let key :=
    match link with
    | some l => normalize_url l
    | none =>
      normalize_url (effCompany cs pc ++ '|' :: pyStrip (getD item hdrs.role []) ++
        '|' :: pyStrip (strip_html_tags (getOpt item hdrs.loc)))
  { pc := pc, ll := ll, company := effCompany cs pc, link := link, key := key }

/-- One attempted dispatch: the dedupe key and the displayed fields. -/
structure Send where
  key : Str
  company : Str
  role : Str
  loc : Str
  age : Str
  link : Option Str
deriving DecidableEq

/-- The state threaded through the row loop of main. -/
structure Ctx where
  notified : Finset Str
  store : StoreFile
  lastLink : Option Str
  prevCompany : Option Str
  sends : List Send
  newly : List Str
  attempts : Nat
deriving DecidableEq

/-- The message of one attempted dispatch, from the resolution and the
    displayed row fields of the source. -/
def sendOf (hdrs : Hdrs) (r : Resolution) (item : Row) : Send :=
  { key := r.key, company := r.company,
    role := strip_html_tags (getD item hdrs.role []),
    loc := strip_html_tags (getOpt item hdrs.loc),
    age := getOpt item hdrs.age, link := r.link }

/-- One iteration of the row loop of main: filters, identity resolution,
    dedupe check, dispatch via the sink oracle, and on success insertion
    into the notified set followed immediately by a save. -/
def processRow (hdrs : Hdrs) (ok : Nat → Bool) (ctx : Ctx) (item : Row) : Ctx :=
  if !location_is_canada (getOpt item hdrs.loc) then ctx
  else if !agePasses (getOpt item hdrs.age) then ctx
  else
    let r := resolveRow hdrs ctx.prevCompany ctx.lastLink item
    let base := { ctx with prevCompany := r.pc, lastLink := r.ll }
    if r.key ∈ ctx.notified then base
    else
      if ok ctx.attempts then
        let nd := insert r.key ctx.notified
        { base with
          notified := nd
          store := save_notified nd
          sends := ctx.sends ++ [sendOf hdrs r item]
          newly := ctx.newly ++ [r.key]
          attempts := ctx.attempts + 1 }
      else
        { base with
          sends := ctx.sends ++ [sendOf hdrs r item]
          attempts := ctx.attempts + 1 }

/-- The state main starts from: the notified set loaded from the store,
    empty contexts. -/
def initCtx (store0 : StoreFile) : Ctx :=
  { notified := load_notified store0, store := store0, lastLink := none,
    prevCompany := none, sends := [], newly := [], attempts := 0 }

/-- The row phase of main: with no rows main exits before the loop;
    otherwise rows are normalized, headers resolved from the first row,
    and the loop folds over the rows in order. -/
def mainRun (raw_rows : List Row) (store0 : StoreFile) (ok : Nat → Bool) : Ctx :=
  if raw_rows == [] then initCtx store0
  else
    let nrows := build_normalized_rows raw_rows
    let hdrs := resolveHdrs nrows
    nrows.foldl (processRow hdrs ok) (initCtx store0)

/-- The markdown path of main, from the raw document text: locate the
    section with the keywords of the source, extract the first pipe
    table, parse it and run the row phase. The markup-table fallbacks of
    main (taken only when no pipe line is present) are outside this
    model, and this function reports none for them. -/
def pipelineMarkdown (md : Str) (store0 : StoreFile) (ok : Nat → Bool) : Option Ctx :=
  match find_section_lines md
      ["Software Engineering Internship Roles".toList, "Software Engineering".toList] with
  | none => none
  | some sec =>
    let tl := extract_first_mdtable sec
    if tl == [] then none
    else some (mainRun (parse_markdown_table tl) store0 ok)

/-- The always-successful sink oracle. -/
def okAll : Nat → Bool := fun _ => true

/-- The always-failing sink oracle. -/
def okNone : Nat → Bool := fun _ => false

/-- The pure context transition of one row (previous company, last
    link), which does not depend on the notified set or the sink. -/
def ctxStep (hdrs : Hdrs) (p : Option Str × Option Str) (item : Row) :
    Option Str × Option Str :=
  if rowQualifies hdrs item then
    ((resolveRow hdrs p.1 p.2 item).pc, (resolveRow hdrs p.1 p.2 item).ll)
  else p

/-- The dedupe keys of the qualifying rows, in order, computed purely
    from the rows (the notified set never influences them). -/
def allKeysFrom (hdrs : Hdrs) : Option Str × Option Str → List Row → List Str
  | _, [] => []
  | p, item :: rest =>
    if rowQualifies hdrs item then
      (resolveRow hdrs p.1 p.2 item).key :: allKeysFrom hdrs (ctxStep hdrs p item) rest
    else allKeysFrom hdrs p rest

/-- The dedupe keys one run computes for a raw row list. -/
def allKeys (raw_rows : List Row) : List Str :=
  let nrows := build_normalized_rows raw_rows
  allKeysFrom (resolveHdrs nrows) (none, none) nrows

/-- The stripped company of a qualifying primary row, when the row is
    one. -/
def qualifiesAndPrimary (hdrs : Hdrs) (item : Row) : Option Str :=
  if rowQualifies hdrs item then
    let cs := companyStripped hdrs item
    if cs != [] && cs != glyph then some cs else none
  else none

/-- The last non-continuation company seen by the loop over a row list
    (rows failing the filters are skipped before the context updates). -/
def lastPrimaryCompany (hdrs : Hdrs) (rows : List Row) : Option Str :=
  (rows.filterMap (qualifiesAndPrimary hdrs)).getLast?

/-! # Concrete fixtures -/

/-- A cell holding an aggregator-redirect anchor and another absolute
    anchor. -/
def aggCell : Str :=
  "<td><a href=\"https://www.simplify.jobs/p/abc\">Simplify</a> <a href=\"https://acme.com/job\">Apply</a></td>".toList

/-- A cell with no link in any form. -/
def noLinkCell : Str := "N/A".toList

/-- Headers as resolved for the standard five-column table. -/
def exHdrs : Hdrs :=
  { app := some "Application".toList, loc := some "Location".toList,
    comp := "Company".toList, role := "Role".toList, age := some "Age".toList }

/-- A qualifying primary row with an absolute application link. -/
def exItemAcme : Row :=
  [("Company".toList, "Acme".toList), ("Role".toList, "SWE".toList),
   ("Location".toList, "Toronto, Canada".toList), ("Age".toList, "0d".toList),
   ("Application".toList, "https://acme.com/j1".toList)]

/-- A continuation row under the Acme primary row: glyph company, no
    link of its own. -/
def exItemCont : Row :=
  [("Company".toList, "↳".toList), ("Role".toList, "SWE".toList),
   ("Location".toList, "Vancouver, Canada".toList), ("Age".toList, "0d".toList),
   ("Application".toList, [])]

/-- A qualifying primary row with an empty application cell, following
    the Acme row. -/
def exItemNewCo : Row :=
  [("Company".toList, "NewCo".toList), ("Role".toList, "QA".toList),
   ("Location".toList, "Ottawa, Canada".toList), ("Age".toList, "0d".toList),
   ("Application".toList, [])]

/-- The character preceding the current scan position: the last character
    of the consumed prefix, or the character before the whole scanned
    string when the prefix is empty. -/
def lastCh (prev : Option Char) (pre : Str) : Option Char :=
  match pre.getLast? with
  | some p => some p
  | none => prev

/-- A document whose only qualifying posting carries a triply escaped
    ampersand entity in its link, on which URL normalization is not
    idempotent. -/
def cexDoc : Str :=
  ("# Software Engineering\n| Company | Role | Location | Age | Application |\n| ------- | ---- | -------- | --- | ----------- |\n| Acme | SWE | Toronto, Canada | 0d | https://x.com/?a=&amp;amp;amp;b |").toList

/-! # Theorems -/

/-! ## Step characterization of the row loop -/

theorem processRow_not_qualifying (hdrs : Hdrs) (ok : Nat → Bool) (ctx : Ctx) (item : Row)
    (h : rowQualifies hdrs item = false) : processRow hdrs ok ctx item = ctx := by
  cases hl : location_is_canada (getOpt item hdrs.loc) with
  | false => simp [processRow, hl]
  | true =>
    cases ha : agePasses (getOpt item hdrs.age) with
    | false => simp [processRow, hl, ha]
    | true => simp [rowQualifies, hl, ha] at h

theorem processRow_skip (hdrs : Hdrs) (ok : Nat → Bool) (ctx : Ctx) (item : Row)
    (hq : rowQualifies hdrs item = true)
    (hk : (resolveRow hdrs ctx.prevCompany ctx.lastLink item).key ∈ ctx.notified) :
    processRow hdrs ok ctx item =
      { ctx with
        prevCompany := (resolveRow hdrs ctx.prevCompany ctx.lastLink item).pc
        lastLink := (resolveRow hdrs ctx.prevCompany ctx.lastLink item).ll } := by
  simp only [rowQualifies, Bool.and_eq_true] at hq
  simp [processRow, hq.1, hq.2, hk]

theorem processRow_send_ok (hdrs : Hdrs) (ok : Nat → Bool) (ctx : Ctx) (item : Row)
    (hq : rowQualifies hdrs item = true)
    (hk : (resolveRow hdrs ctx.prevCompany ctx.lastLink item).key ∉ ctx.notified)
    (hs : ok ctx.attempts = true) :
    processRow hdrs ok ctx item =
      { notified := insert (resolveRow hdrs ctx.prevCompany ctx.lastLink item).key ctx.notified
        store := save_notified
          (insert (resolveRow hdrs ctx.prevCompany ctx.lastLink item).key ctx.notified)
        lastLink := (resolveRow hdrs ctx.prevCompany ctx.lastLink item).ll
        prevCompany := (resolveRow hdrs ctx.prevCompany ctx.lastLink item).pc
        sends := ctx.sends ++
          [sendOf hdrs (resolveRow hdrs ctx.prevCompany ctx.lastLink item) item]
        newly := ctx.newly ++ [(resolveRow hdrs ctx.prevCompany ctx.lastLink item).key]
        attempts := ctx.attempts + 1 } := by
  simp only [rowQualifies, Bool.and_eq_true] at hq
  simp [processRow, hq.1, hq.2, hk, hs]

theorem processRow_send_fail (hdrs : Hdrs) (ok : Nat → Bool) (ctx : Ctx) (item : Row)
    (hq : rowQualifies hdrs item = true)
    (hk : (resolveRow hdrs ctx.prevCompany ctx.lastLink item).key ∉ ctx.notified)
    (hs : ok ctx.attempts = false) :
    processRow hdrs ok ctx item =
      { ctx with
        lastLink := (resolveRow hdrs ctx.prevCompany ctx.lastLink item).ll
        prevCompany := (resolveRow hdrs ctx.prevCompany ctx.lastLink item).pc
        sends := ctx.sends ++
          [sendOf hdrs (resolveRow hdrs ctx.prevCompany ctx.lastLink item) item]
        attempts := ctx.attempts + 1 } := by
  simp only [rowQualifies, Bool.and_eq_true] at hq
  simp [processRow, hq.1, hq.2, hk, hs]

/-- The notified set never loses a key across one step. -/
theorem processRow_notified_mono (hdrs : Hdrs) (ok : Nat → Bool) (ctx : Ctx) (item : Row) :
    ctx.notified ⊆ (processRow hdrs ok ctx item).notified := by
  cases hq : rowQualifies hdrs item with
  | false => rw [processRow_not_qualifying hdrs ok ctx item hq]
  | true =>
    by_cases hk : (resolveRow hdrs ctx.prevCompany ctx.lastLink item).key ∈ ctx.notified
    · rw [processRow_skip hdrs ok ctx item hq hk]
    · cases hs : ok ctx.attempts with
      | false => rw [processRow_send_fail hdrs ok ctx item hq hk hs]
      | true =>
        rw [processRow_send_ok hdrs ok ctx item hq hk hs]
        exact Finset.subset_insert _ _

/-- The notified set never loses a key across the whole loop. -/
theorem foldl_notified_mono (hdrs : Hdrs) (ok : Nat → Bool) :
    ∀ (rows : List Row) (ctx : Ctx),
      ctx.notified ⊆ (rows.foldl (processRow hdrs ok) ctx).notified := by
  intro rows
  induction rows with
  | nil => intro ctx; simp
  | cons item rest ih =>
    intro ctx
    exact (processRow_notified_mono hdrs ok ctx item).trans (ih _)

/-- C4: extract_link_from_cell tries the five strategies in order and
    returns the first success: (a) an absolute anchor href avoiding the
    aggregator redirect path, (b) any absolute anchor href, (c) a
    markdown bracket-link URL, (d) a raw href-attribute URL, (e) any bare
    absolute http(s) token; a cell with both an aggregator anchor and
    another absolute anchor yields the non-aggregator link, and a cell
    with no link yields no result. -/
theorem extract_link_cascade :
    (∀ cell : Str,
      extract_link_from_cell cell = linkStrategies.findSome? fun f => f cell) ∧
    extract_link_from_cell aggCell = some "https://acme.com/job".toList ∧
    extract_link_from_cell noLinkCell = none := by
  refine ⟨fun cell => ?_, by decide, by decide⟩
  by_cases hc : cell = []
  · subst hc; rfl
  · have hc' : (cell == []) = false := by simpa using hc
    simp only [extract_link_from_cell, hc', Bool.false_eq_true, if_false, linkStrategies,
      List.findSome?_cons, List.findSome?_nil, stratA, stratB, stratC, stratD, stratE]
    cases (anchorHrefsStripped cell).find? fun h => h != [] && isAbsHttp h && !isAggregator h
    · cases (anchorHrefsStripped cell).find? fun h => h != [] && isAbsHttp h
      · cases mdLinkSearch cell
        · cases hrefAttrSearch cell
          · cases bareUrlSearch cell <;> rfl
          · rfl
        · rfl
      · rfl
    · rfl

/-- C9: for a qualifying, not-yet-notified posting, a successful dispatch
    inserts the key into the notified set and persists the set in the
    same step (one save per successful send), before the loop moves to
    the next posting; a failed dispatch leaves the key out of the set,
    leaves the store untouched, records only the attempt, and the loop
    continues with the remaining postings; the notified set never loses
    keys added by earlier successes. -/
theorem dispatch_protocol (hdrs : Hdrs) (ok : Nat → Bool) (ctx : Ctx) (item : Row)
    (rows : List Row)
    (hq : rowQualifies hdrs item = true)
    (hk : (resolveRow hdrs ctx.prevCompany ctx.lastLink item).key ∉ ctx.notified) :
    (ok ctx.attempts = true →
      (processRow hdrs ok ctx item).notified =
        insert (resolveRow hdrs ctx.prevCompany ctx.lastLink item).key ctx.notified ∧
      (processRow hdrs ok ctx item).store =
        save_notified
          (insert (resolveRow hdrs ctx.prevCompany ctx.lastLink item).key ctx.notified) ∧
      (processRow hdrs ok ctx item).newly =
        ctx.newly ++ [(resolveRow hdrs ctx.prevCompany ctx.lastLink item).key]) ∧
    (ok ctx.attempts = false →
      (resolveRow hdrs ctx.prevCompany ctx.lastLink item).key ∉
        (processRow hdrs ok ctx item).notified ∧
      (processRow hdrs ok ctx item).notified = ctx.notified ∧
      (processRow hdrs ok ctx item).store = ctx.store ∧
      (processRow hdrs ok ctx item).newly = ctx.newly ∧
      (processRow hdrs ok ctx item).sends =
        ctx.sends ++ [sendOf hdrs (resolveRow hdrs ctx.prevCompany ctx.lastLink item) item]) ∧
    ((item :: rows).foldl (processRow hdrs ok) ctx =
      rows.foldl (processRow hdrs ok) (processRow hdrs ok ctx item)) ∧
    ctx.notified ⊆ ((item :: rows).foldl (processRow hdrs ok) ctx).notified := by
  refine ⟨fun hs => ?_, fun hs => ?_, rfl, ?_⟩
  · rw [processRow_send_ok hdrs ok ctx item hq hk hs]
    exact ⟨rfl, rfl, rfl⟩
  · rw [processRow_send_fail hdrs ok ctx item hq hk hs]
    exact ⟨hk, rfl, rfl, rfl, rfl⟩
  · exact foldl_notified_mono hdrs ok (item :: rows) ctx

/-- Witness for C9 at the Acme fixture, in both sink outcomes. -/
theorem dispatch_protocol_witness :
    ((processRow exHdrs okAll (initCtx .missing) exItemAcme).notified =
      insert
        (resolveRow exHdrs (initCtx .missing).prevCompany
          (initCtx .missing).lastLink exItemAcme).key
        (initCtx .missing).notified) ∧
    (processRow exHdrs okNone (initCtx .missing) exItemAcme).notified =
      (initCtx .missing).notified ∧
    (processRow exHdrs okNone (initCtx .missing) exItemAcme).store =
      (initCtx .missing).store := by
  refine ⟨((dispatch_protocol exHdrs okAll (initCtx .missing) exItemAcme []
    (by decide) (by decide)).1 rfl).1, ?_, ?_⟩
  · exact ((dispatch_protocol exHdrs okNone (initCtx .missing) exItemAcme []
      (by decide) (by decide)).2.1 rfl).2.1
  · exact ((dispatch_protocol exHdrs okNone (initCtx .missing) exItemAcme []
      (by decide) (by decide)).2.1 rfl).2.2.1

/-! ## Schema-dependent disqualification (C10) -/

theorem processRow_loc_none (hdrs : Hdrs) (hl : hdrs.loc = none)
    (ok : Nat → Bool) (ctx : Ctx) (item : Row) : processRow hdrs ok ctx item = ctx := by
  simp [processRow, hl, getOpt, location_is_canada]

theorem processRow_age_none (hdrs : Hdrs) (ha : hdrs.age = none)
    (ok : Nat → Bool) (ctx : Ctx) (item : Row) : processRow hdrs ok ctx item = ctx := by
  simp [processRow, ha, getOpt, agePasses]

theorem foldl_const_of_step (hdrs : Hdrs) (ok : Nat → Bool)
    (hstep : ∀ (c : Ctx) (item : Row), processRow hdrs ok c item = c) :
    ∀ (rows : List Row) (ctx : Ctx), rows.foldl (processRow hdrs ok) ctx = ctx := by
  intro rows
  induction rows with
  | nil => intro ctx; rfl
  | cons item rest ih => intro ctx; rw [List.foldl_cons, hstep, ih]

/-- C10: when no human header contains "location" (case-insensitive), or
    none contains "age", the corresponding column lookup resolves to no
    header, so every row reads an empty location or age text, no row
    passes the filters, the run dispatches nothing and both the
    in-memory notified set and the persisted store are left unchanged. -/
theorem schema_missing_column (raw_rows : List Row) (store0 : StoreFile) (ok : Nat → Bool)
    (h : (∀ h₀ ∈ humanHeaders (build_normalized_rows raw_rows),
            lowerContains "location".toList h₀ = false) ∨
         (∀ h₀ ∈ humanHeaders (build_normalized_rows raw_rows),
            lowerContains "age".toList h₀ = false)) :
    ((resolveHdrs (build_normalized_rows raw_rows)).loc = none ∨
     (resolveHdrs (build_normalized_rows raw_rows)).age = none) ∧
    (mainRun raw_rows store0 ok).sends = [] ∧
    (mainRun raw_rows store0 ok).notified = load_notified store0 ∧
    (mainRun raw_rows store0 ok).store = store0 := by
  have hcol : (resolveHdrs (build_normalized_rows raw_rows)).loc = none ∨
      (resolveHdrs (build_normalized_rows raw_rows)).age = none := by
    rcases h with h | h
    · exact Or.inl (List.find?_eq_none.mpr fun x hx => by simpa using h x hx)
    · exact Or.inr (List.find?_eq_none.mpr fun x hx => by simpa using h x hx)
  have hstep : ∀ (c : Ctx) (item : Row),
      processRow (resolveHdrs (build_normalized_rows raw_rows)) ok c item = c := by
    intro c item
    rcases hcol with hc | hc
    · exact processRow_loc_none _ hc ok c item
    · exact processRow_age_none _ hc ok c item
  refine ⟨hcol, ?_⟩
  unfold mainRun
  by_cases hr : raw_rows = []
  · subst hr; exact ⟨rfl, rfl, rfl⟩
  · have hr' : (raw_rows == []) = false := by simpa using hr
    simp only [hr', Bool.false_eq_true, if_false]
    rw [foldl_const_of_step _ ok hstep]
    exact ⟨rfl, rfl, rfl⟩

/-- Witness for C10: a table without an age column dispatches nothing
    and leaves a nonempty store unchanged. -/
theorem schema_missing_column_witness :
    (mainRun [[("Company".toList, "Acme".toList),
               ("Location".toList, "Toronto, Canada".toList)]]
      (.data ["x".toList]) okAll).sends = [] ∧
    (mainRun [[("Company".toList, "Acme".toList),
               ("Location".toList, "Toronto, Canada".toList)]]
      (.data ["x".toList]) okAll).store = .data ["x".toList] := by
  have h := schema_missing_column
    [[("Company".toList, "Acme".toList), ("Location".toList, "Toronto, Canada".toList)]]
    (.data ["x".toList]) okAll (Or.inr (by decide))
  exact ⟨h.2.1, h.2.2.2⟩

/-! ## NotifiedSet round-trip (C8) -/

theorem mem_sortedKeys (m : Multiset Str) (y : Str) : y ∈ sortedKeys m ↔ y ∈ m := by
  induction m using Quotient.inductionOn with
  | h l => simp [sortedKeys, (List.perm_insertionSort (· ≤ ·) l).mem_iff]

theorem sortedKeys_sorted (m : Multiset Str) : (sortedKeys m).Sorted (· ≤ ·) := by
  induction m using Quotient.inductionOn with
  | h l => exact List.sorted_insertionSort _ l

theorem sortedKeys_coe (m : Multiset Str) : (sortedKeys m : Multiset Str) = m := by
  induction m using Quotient.inductionOn with
  | h l => exact Quot.sound (List.perm_insertionSort _ l)

theorem load_save (s : Finset Str) :
    load_notified (save_notified s) = (s.image normalize_url).image normalize_url := by
  ext x
  simp only [load_notified, save_notified, List.mem_toFinset, List.mem_map,
    Finset.mem_image]
  constructor
  · rintro ⟨y, hy, rfl⟩
    rw [mem_sortedKeys, Multiset.mem_map] at hy
    obtain ⟨z, hz, rfl⟩ := hy
    exact ⟨normalize_url z, ⟨z, hz, rfl⟩, rfl⟩
  · rintro ⟨y, ⟨z, hz, rfl⟩, rfl⟩
    refine ⟨normalize_url z, ?_, rfl⟩
    rw [mem_sortedKeys, Multiset.mem_map]
    exact ⟨z, hz, rfl⟩

/-- C8 (amended): loading immediately after saving the set S yields the
    image of S under twice-applied normalization — which equals the
    normalized image of S whenever normalization is idempotent on the
    members of S; loading a missing or corrupt store yields the empty
    set rather than an error; and the saved form is the sorted list of
    the normalized members, hence determined by the set alone. -/
theorem notified_roundtrip (s : Finset Str) :
    load_notified (save_notified s) = (s.image normalize_url).image normalize_url ∧
    ((∀ x ∈ s, normalize_url (normalize_url x) = normalize_url x) →
      load_notified (save_notified s) = s.image normalize_url) ∧
    load_notified .missing = ∅ ∧
    load_notified .corrupt = ∅ ∧
    (∃ l, save_notified s = .data l ∧ l.Sorted (· ≤ ·) ∧
      (l : Multiset Str) = s.val.map normalize_url) := by
  refine ⟨load_save s, fun hid => ?_, rfl, rfl,
    ⟨sortedKeys (s.val.map normalize_url), rfl,
      sortedKeys_sorted _, sortedKeys_coe _⟩⟩
  rw [load_save s, Finset.image_image]
  apply Finset.image_congr
  intro x hx
  exact hid x hx

/-- Counterexample for C8 as stated: for a member holding a doubly
    escaped ampersand entity, save-then-load differs from the normalized
    image of the saved set (normalization unescapes once more on load). -/
theorem notified_roundtrip_cex :
    load_notified (save_notified {("a&amp;amp;b".toList : Str)}) ≠
      Finset.image normalize_url {("a&amp;amp;b".toList : Str)} := by decide

/-- Witness for C8 at a singleton set on which normalization is
    idempotent. -/
theorem notified_roundtrip_witness :
    load_notified (save_notified {("https://a.com".toList : Str)}) =
      Finset.image normalize_url {("https://a.com".toList : Str)} :=
  (notified_roundtrip {("https://a.com".toList : Str)}).2.1 (by decide)

/-! ## Row normalization key shape (C7) -/

theorem pyInsert_of_not_mem (row : Row) (k v : Str) (h : k ∉ row.map Prod.fst) :
    pyInsert row k v = row ++ [(k, v)] := by
  unfold pyInsert
  rw [if_neg]
  intro hany
  rw [List.any_eq_true] at hany
  obtain ⟨p, hp, hpk⟩ := hany
  exact h (List.mem_map.mpr ⟨p, hp, by simpa using hpk⟩)

theorem mem_keys_pyInsert (row : Row) (k v a : Str) :
    a ∈ (pyInsert row k v).map Prod.fst ↔ a ∈ row.map Prod.fst ∨ a = k := by
  unfold pyInsert
  split
  case isTrue hany =>
    rw [List.any_eq_true] at hany
    obtain ⟨p, hp, hpk⟩ := hany
    have hpk' : p.1 = k := by simpa using hpk
    have hkeys : (row.map fun p => if p.1 == k then (k, v) else p).map Prod.fst =
        row.map Prod.fst := by
      rw [List.map_map]
      apply List.map_congr_left
      intro q _
      by_cases hq : q.1 = k
      · simp [hq]
      · simp [hq]
    rw [hkeys]
    constructor
    · exact Or.inl
    · rintro (ha | rfl)
      · exact ha
      · exact List.mem_map.mpr ⟨p, hp, hpk'⟩
  case isFalse =>
    simp

theorem mem_keys_normStep (row : Row) (p : Str × Str) (a : Str) :
    a ∈ (normStep row p).map Prod.fst ↔
      a ∈ row.map Prod.fst ∨ a = p.1 ∨ a = p.1 ++ rawSuffix := by
  unfold normStep
  split <;> simp only [mem_keys_pyInsert] <;> tauto

theorem mem_keys_normFold (r : Row) : ∀ (acc : Row) (a : Str),
    a ∈ (r.foldl normStep acc).map Prod.fst ↔
      a ∈ acc.map Prod.fst ∨ ∃ k ∈ r.map Prod.fst, a = k ∨ a = k ++ rawSuffix := by
  induction r with
  | nil => intro acc a; simp
  | cons p rest ih =>
    intro acc a
    rw [List.foldl_cons, ih, mem_keys_normStep]
    constructor
    · rintro ((ha | ha | ha) | ⟨k, hk, hak⟩)
      · exact Or.inl ha
      · exact Or.inr ⟨p.1, by simp, Or.inl ha⟩
      · exact Or.inr ⟨p.1, by simp, Or.inr ha⟩
      · exact Or.inr ⟨k, by simp [hk], hak⟩
    · rintro (ha | ⟨k, hk, hak⟩)
      · exact Or.inl (Or.inl ha)
      · rw [List.map_cons, List.mem_cons] at hk
        rcases hk with hkp | hkr
        · rcases hak with rfl | rfl
          · exact Or.inl (Or.inr (Or.inl hkp))
          · exact Or.inl (Or.inr (Or.inr (by rw [hkp])))
        · exact Or.inr ⟨k, hkr, hak⟩

theorem self_ne_append_raw (k : Str) : k ≠ k ++ rawSuffix := by
  intro h
  have := congrArg List.length h
  simp [rawSuffix] at this

theorem normStep_length (acc : Row) (p : Str × Str)
    (h1 : p.1 ∉ acc.map Prod.fst) (h2 : p.1 ++ rawSuffix ∉ acc.map Prod.fst) :
    (normStep acc p).length = acc.length + 2 := by
  unfold normStep
  split
  · rw [pyInsert_of_not_mem _ _ _ h2,
      pyInsert_of_not_mem _ _ _ (by
        simp only [List.map_append, List.mem_append]
        rintro (h | h)
        · exact h1 h
        · simp [rawSuffix] at h)]
    simp
  · rw [pyInsert_of_not_mem _ _ _ h1,
      pyInsert_of_not_mem _ _ _ (by
        simp only [List.map_append, List.mem_append]
        rintro (h | h)
        · exact h2 h
        · simp [rawSuffix] at h)]
    simp

theorem normFold_length : ∀ (r : Row) (acc : Row),
    (∀ k ∈ r.map Prod.fst, k ∉ acc.map Prod.fst ∧ k ++ rawSuffix ∉ acc.map Prod.fst) →
    (r.map Prod.fst).Nodup →
    (∀ k ∈ r.map Prod.fst, ∀ k₂ ∈ r.map Prod.fst, k ≠ k₂ ++ rawSuffix) →
    (r.foldl normStep acc).length = acc.length + 2 * r.length := by
  intro r
  induction r with
  | nil => intro acc _ _ _; simp
  | cons p rest ih =>
    intro acc hfresh hnd hcol
    have hnd' : (p.1 :: rest.map Prod.fst).Nodup := by
      rw [List.map_cons] at hnd; exact hnd
    have hp1 : p.1 ∈ (p :: rest).map Prod.fst := by simp
    have hstep := normStep_length acc p (hfresh p.1 hp1).1 (hfresh p.1 hp1).2
    rw [List.foldl_cons,
      ih (normStep acc p) ?_ hnd'.of_cons ?_, hstep]
    · simp only [List.length_cons]; ring
    · intro k hk
      have hkr : k ∈ (p :: rest).map Prod.fst := by simp [hk]
      have hk_ne_p : k ≠ p.1 := by
        intro h
        subst h
        exact (List.nodup_cons.mp hnd').1 hk
      constructor
      · rw [mem_keys_normStep]
        rintro (h | h | h)
        · exact (hfresh k hkr).1 h
        · exact hk_ne_p h
        · exact hcol k hkr p.1 hp1 h
      · rw [mem_keys_normStep]
        rintro (h | h | h)
        · exact (hfresh k hkr).2 h
        · exact hcol p.1 hp1 k hkr h.symm
        · exact hk_ne_p (List.append_cancel_right h)
    · intro k hk k₂ hk₂
      exact hcol k (by simp [hk]) k₂ (by simp [hk₂])

/-- C7 (amended): for every RawRow, the key set of the NormalizedRow is
    exactly the original keys united with their raw-suffixed variants;
    the key count is exactly twice the RawRow's when (as for every table
    actually parsed from distinct headers) no original key is another
    original key with the raw suffix appended. Without that proviso a
    raw-suffix collision merges keys and the count falls short. -/
theorem normalized_row_keys (r : Row) :
    (∀ a : Str, a ∈ (normalizeRow r).map Prod.fst ↔
      a ∈ r.map Prod.fst ∨ ∃ k ∈ r.map Prod.fst, a = k ++ rawSuffix) ∧
    ((r.map Prod.fst).Nodup →
      (∀ k ∈ r.map Prod.fst, k ++ rawSuffix ∉ r.map Prod.fst) →
      (normalizeRow r).length = 2 * r.length) := by
  constructor
  · intro a
    rw [normalizeRow, mem_keys_normFold]
    constructor
    · rintro (ha | ⟨k, hk, rfl | rfl⟩)
      · simp at ha
      · exact Or.inl hk
      · exact Or.inr ⟨k, hk, rfl⟩
    · rintro (ha | ⟨k, hk, rfl⟩)
      · exact Or.inr ⟨a, ha, Or.inl rfl⟩
      · exact Or.inr ⟨k, hk, Or.inr rfl⟩
  · intro hnd hcol
    rw [normalizeRow, normFold_length r [] (by simp) hnd ?_]
    · simp
    · intro k hk k₂ hk₂ h
      subst h
      exact hcol k₂ hk₂ hk

/-- Counterexample for C7 as stated: a RawRow whose keys are "a" and
    "a_raw" normalizes to three keys, not four. -/
theorem normalized_row_keys_cex :
    ¬ ((normalizeRow [("a".toList, "x".toList), ("a_raw".toList, "y".toList)]).length =
      2 * ([("a".toList, "x".toList), ("a_raw".toList, "y".toList)] : Row).length) := by
  decide

/-- Witness for C7 at a two-column row with ordinary headers. -/
theorem normalized_row_keys_witness :
    (normalizeRow [("Company".toList, "Acme".toList),
      ("Role".toList, "SWE".toList)]).length =
      2 * ([("Company".toList, "Acme".toList),
        ("Role".toList, "SWE".toList)] : Row).length :=
  (normalized_row_keys _).2 (by decide) (by decide)

/-! ## Pipe-table parsing (C6) -/

theorem rowDict_keys_aux : ∀ (ps : List (Str × Str)) (acc : Row),
    (acc.map Prod.fst ++ ps.map Prod.fst).Nodup →
    (ps.foldl (fun r p => pyInsert r p.1 p.2) acc).map Prod.fst =
      acc.map Prod.fst ++ ps.map Prod.fst := by
  intro ps
  induction ps with
  | nil => intro acc _; simp
  | cons p rest ih =>
    intro acc hnd
    have hp_not : p.1 ∉ acc.map Prod.fst := by
      intro h
      rw [List.map_cons] at hnd
      exact (List.nodup_append.mp hnd).2.2 h (List.mem_cons_self _ _)
    rw [List.foldl_cons, pyInsert_of_not_mem _ _ _ hp_not, ih (acc ++ [(p.1, p.2)]) ?_]
    · simp
    · simpa using hnd

theorem padTo_length_ge (n : Nat) (cells : List Str) : n ≤ (padTo n cells).length := by
  simp only [padTo, List.length_append, List.length_replicate]
  omega

theorem rowDict_keys (headers cells : List Str) (hnd : headers.Nodup)
    (hlen : headers.length ≤ cells.length) :
    (rowDict headers cells).map Prod.fst = headers := by
  unfold rowDict
  have hzip : (headers.zip cells).map Prod.fst = headers :=
    List.map_fst_zip headers cells hlen
  rw [rowDict_keys_aux (headers.zip cells) [] (by simpa [hzip] using hnd)]
  simpa using hzip

/-- C6: parse_markdown_table keeps the non-blank lines, cleans each
    (strip, strip pipes, strip), takes the first as the header row,
    consumes the second exactly when it matches the dashes-and-pipes
    separator pattern (data then starts at the third line, otherwise at
    the second), pads short rows with empty cells, and maps headers to
    cells positionally; for valid input — all lines non-blank, distinct
    header cells — the output row count is the data-line count and every
    record carries exactly the pipe-delimited header cells as keys. -/
theorem parse_table_shape (l₀ l₁ : Str) (rest : List Str)
    (hnb : ∀ ln ∈ l₀ :: l₁ :: rest, pyStrip ln ≠ [])
    (hnd : ((pySplitOn '|' (cleanLine l₀)).map pyStrip).Nodup) :
    (sepMatch (cleanLine l₁) = true →
      (parse_markdown_table (l₀ :: l₁ :: rest)).length = rest.length) ∧
    (sepMatch (cleanLine l₁) = false →
      (parse_markdown_table (l₀ :: l₁ :: rest)).length = rest.length + 1) ∧
    ∀ r ∈ parse_markdown_table (l₀ :: l₁ :: rest),
      r.map Prod.fst = (pySplitOn '|' (cleanLine l₀)).map pyStrip := by
  have hfilter : (l₀ :: l₁ :: rest).filter (fun ln => pyStrip ln != []) =
      l₀ :: l₁ :: rest :=
    List.filter_eq_self.mpr fun a ha => by simpa using hnb a ha
  unfold parse_markdown_table
  rw [hfilter]
  simp only [List.map_cons, List.length_cons, List.tail_cons, List.headD_cons]
  rw [if_neg (by omega)]
  refine ⟨fun hsep => ?_, fun hsep => ?_, fun r hr => ?_⟩
  · rw [if_pos hsep]
    simp
  · rw [if_neg (by simp [hsep])]
    simp
  · have hkeys : ∀ row : Str,
        (rowDict ((pySplitOn '|' (cleanLine l₀)).map pyStrip)
          (padTo ((pySplitOn '|' (cleanLine l₀)).map pyStrip).length
            ((pySplitOn '|' row).map pyStrip))).map Prod.fst =
          (pySplitOn '|' (cleanLine l₀)).map pyStrip :=
      fun row => rowDict_keys _ _ hnd (padTo_length_ge _ _)
    split at hr <;>
      · simp only [List.mem_map] at hr
        obtain ⟨row, _, rfl⟩ := hr
        exact hkeys row

/-- Witness for C6 at a two-data-row table with a short second row. -/
theorem parse_table_shape_witness :
    (parse_markdown_table
      ["| A | B |".toList, "| --- | --- |".toList,
       "| 1 | 2 |".toList, "| 3 |".toList]).length = 2 ∧
    ∀ r ∈ parse_markdown_table
      ["| A | B |".toList, "| --- | --- |".toList,
       "| 1 | 2 |".toList, "| 3 |".toList],
      r.map Prod.fst = (pySplitOn '|' (cleanLine "| A | B |".toList)).map pyStrip := by
  have h := parse_table_shape "| A | B |".toList "| --- | --- |".toList
    ["| 1 | 2 |".toList, "| 3 |".toList] (by decide) (by decide)
  exact ⟨h.1 (by decide), h.2.2⟩

/-! ## Continuation resolution (C2) -/

theorem resolveRow_pc (hdrs : Hdrs) (pc ll : Option Str) (item : Row) :
    (resolveRow hdrs pc ll item).pc = stepPC pc (companyStripped hdrs item) := rfl

theorem resolveRow_ll (hdrs : Hdrs) (pc ll : Option Str) (item : Row) :
    (resolveRow hdrs pc ll item).ll =
      stepLL ll (companyStripped hdrs item) (currentLinkOf hdrs item) := rfl

/-- The loop's running contexts project to the pure context transition. -/
theorem processRow_context (hdrs : Hdrs) (ok : Nat → Bool) (ctx : Ctx) (item : Row) :
    ((processRow hdrs ok ctx item).prevCompany, (processRow hdrs ok ctx item).lastLink) =
      ctxStep hdrs (ctx.prevCompany, ctx.lastLink) item := by
  cases hq : rowQualifies hdrs item with
  | false => rw [processRow_not_qualifying _ _ _ _ hq]; simp [ctxStep, hq]
  | true =>
    by_cases hk : (resolveRow hdrs ctx.prevCompany ctx.lastLink item).key ∈ ctx.notified
    · rw [processRow_skip _ _ _ _ hq hk]; simp [ctxStep, hq]
    · cases hs : ok ctx.attempts with
      | false => rw [processRow_send_fail _ _ _ _ hq hk hs]; simp [ctxStep, hq]
      | true => rw [processRow_send_ok _ _ _ _ hq hk hs]; simp [ctxStep, hq]

theorem foldl_context (hdrs : Hdrs) (ok : Nat → Bool) :
    ∀ (rows : List Row) (ctx : Ctx),
      ((rows.foldl (processRow hdrs ok) ctx).prevCompany,
       (rows.foldl (processRow hdrs ok) ctx).lastLink) =
        rows.foldl (ctxStep hdrs) (ctx.prevCompany, ctx.lastLink) := by
  intro rows
  induction rows with
  | nil => intro ctx; rfl
  | cons item rest ih =>
    intro ctx
    rw [List.foldl_cons, List.foldl_cons, ih (processRow hdrs ok ctx item),
      processRow_context]

theorem ctxStep_fst_of_none (hdrs : Hdrs) (p : Option Str × Option Str) (item : Row)
    (h : qualifiesAndPrimary hdrs item = none) : (ctxStep hdrs p item).1 = p.1 := by
  unfold ctxStep
  unfold qualifiesAndPrimary at h
  cases hq : rowQualifies hdrs item with
  | false => simp [hq]
  | true =>
    rw [hq] at h
    simp only [if_true] at h
    rw [resolveRow_pc]
    simp only [hq, if_true, stepPC]
    split
    case isTrue hc => rw [if_pos hc] at h; exact absurd h (by simp)
    case isFalse => rfl

theorem ctxStep_fst_of_some (hdrs : Hdrs) (p : Option Str × Option Str) (item : Row)
    (c : Str) (h : qualifiesAndPrimary hdrs item = some c) :
    (ctxStep hdrs p item).1 = some c := by
  unfold ctxStep
  unfold qualifiesAndPrimary at h
  cases hq : rowQualifies hdrs item with
  | false => rw [hq] at h; simp at h
  | true =>
    rw [hq] at h
    simp only [if_true] at h
    rw [resolveRow_pc]
    simp only [hq, if_true, stepPC]
    split
    case isTrue hc =>
      rw [if_pos hc] at h
      simpa using h
    case isFalse hc => rw [if_neg hc] at h; exact absurd h (by simp)

theorem foldl_ctxStep_lastPrimary (hdrs : Hdrs) :
    ∀ (rows : List Row) (p : Option Str × Option Str),
      (rows.foldl (ctxStep hdrs) p).1 = (lastPrimaryCompany hdrs rows).or p.1 := by
  intro rows
  induction rows with
  | nil => intro p; simp [lastPrimaryCompany]
  | cons item rest ih =>
    intro p
    rw [List.foldl_cons, ih (ctxStep hdrs p item)]
    unfold lastPrimaryCompany
    rw [List.filterMap_cons]
    cases hqp : qualifiesAndPrimary hdrs item with
    | none => rw [ctxStep_fst_of_none hdrs p item hqp]
    | some c =>
      rw [ctxStep_fst_of_some hdrs p item c hqp]
      cases hfm : (rest.filterMap (qualifiesAndPrimary hdrs)).getLast? with
      | none =>
        rw [List.getLast?_eq_none_iff] at hfm
        simp [lastPrimaryCompany, hfm]
      | some d =>
        have hne : rest.filterMap (qualifiesAndPrimary hdrs) ≠ [] := by
          intro h0
          rw [h0] at hfm
          simp at hfm
        cases hl : rest.filterMap (qualifiesAndPrimary hdrs) with
        | nil => exact absurd hl hne
        | cons x xs =>
          rw [hl] at hfm
          simp [lastPrimaryCompany, hl, List.getLast?_cons_cons, hfm]

theorem lastPrimaryCompany_ne_nil (hdrs : Hdrs) (rows : List Row) (p : Str)
    (h : lastPrimaryCompany hdrs rows = some p) : p ≠ [] := by
  unfold lastPrimaryCompany at h
  have hp : p ∈ rows.filterMap (qualifiesAndPrimary hdrs) := by
    obtain ⟨hne, heq⟩ := List.mem_getLast?_eq_getLast (l := rows.filterMap _) (x := p) h
    rw [heq]
    exact List.getLast_mem hne
  rw [List.mem_filterMap] at hp
  obtain ⟨item, _, hitem⟩ := hp
  unfold qualifiesAndPrimary at hitem
  by_cases hq : rowQualifies hdrs item = true
  · simp only [hq, if_true] at hitem
    by_cases hc :
        (companyStripped hdrs item != [] && companyStripped hdrs item != glyph) = true
    · rw [if_pos hc] at hitem
      obtain rfl : companyStripped hdrs item = p := Option.some_injective _ hitem
      simp only [Bool.and_eq_true, bne_iff_ne] at hc
      exact hc.1
    · rw [if_neg hc] at hitem
      simp at hitem
  · simp only [Bool.not_eq_true] at hq
    rw [hq] at hitem
    simp at hitem

/-- C2: a qualifying row whose company cell text equals the continuation
    glyph is attributed to the immediately preceding primary row seen by
    the loop: the previous-company context after any prefix of rows is
    the last qualifying non-continuation company, the continuation row
    resolves to that company, and when its own application cell yields
    no link it resolves to the last link recorded by a primary row. -/
theorem continuation_resolution (hdrs : Hdrs) (ok : Nat → Bool) (rows : List Row)
    (item : Row) (store0 : StoreFile)
    (_hq : rowQualifies hdrs item = true)
    (hg : companyStripped hdrs item = glyph) :
    (rows.foldl (processRow hdrs ok) (initCtx store0)).prevCompany =
      lastPrimaryCompany hdrs rows ∧
    (∀ p, lastPrimaryCompany hdrs rows = some p →
      (resolveRow hdrs
        (rows.foldl (processRow hdrs ok) (initCtx store0)).prevCompany
        (rows.foldl (processRow hdrs ok) (initCtx store0)).lastLink item).company = p) ∧
    (currentLinkOf hdrs item = none →
      (resolveRow hdrs
        (rows.foldl (processRow hdrs ok) (initCtx store0)).prevCompany
        (rows.foldl (processRow hdrs ok) (initCtx store0)).lastLink item).link =
      (rows.foldl (processRow hdrs ok) (initCtx store0)).lastLink) := by
  have hctx := foldl_context hdrs ok rows (initCtx store0)
  have hpc : (rows.foldl (processRow hdrs ok) (initCtx store0)).prevCompany =
      lastPrimaryCompany hdrs rows := by
    have h1 := congrArg Prod.fst hctx
    simp only at h1
    rw [h1, foldl_ctxStep_lastPrimary hdrs rows]
    simp [initCtx, Option.or_none]
  refine ⟨hpc, fun p hp => ?_, fun hcur => ?_⟩
  · unfold resolveRow
    simp only [hg]
    have hpcstep : stepPC
        (rows.foldl (processRow hdrs ok) (initCtx store0)).prevCompany glyph =
        (rows.foldl (processRow hdrs ok) (initCtx store0)).prevCompany := by
      simp [stepPC]
    rw [hpcstep, hpc, hp]
    unfold effCompany
    rw [if_pos]
    · rfl
    · simp only [glyph, beq_self_eq_true, Bool.true_and, pcTruthy]
      simpa using lastPrimaryCompany_ne_nil hdrs rows p hp
  · unfold resolveRow
    simp only [hcur, hg]
    have : stepLL (rows.foldl (processRow hdrs ok) (initCtx store0)).lastLink glyph none =
        (rows.foldl (processRow hdrs ok) (initCtx store0)).lastLink := by
      simp [stepLL, glyph]
    rw [this]
    rfl

/-- Witness for C2: after the Acme primary row, the continuation row
    resolves to company Acme and inherits the primary row's link. -/
theorem continuation_resolution_witness :
    (resolveRow exHdrs
      ([exItemAcme].foldl (processRow exHdrs okAll) (initCtx .missing)).prevCompany
      ([exItemAcme].foldl (processRow exHdrs okAll) (initCtx .missing)).lastLink
      exItemCont).company = "Acme".toList ∧
    (resolveRow exHdrs
      ([exItemAcme].foldl (processRow exHdrs okAll) (initCtx .missing)).prevCompany
      ([exItemAcme].foldl (processRow exHdrs okAll) (initCtx .missing)).lastLink
      exItemCont).link =
      ([exItemAcme].foldl (processRow exHdrs okAll) (initCtx .missing)).lastLink ∧
    ([exItemAcme].foldl (processRow exHdrs okAll) (initCtx .missing)).lastLink =
      some "https://acme.com/j1".toList := by
  have h := continuation_resolution exHdrs okAll [exItemAcme] exItemCont .missing
    (by decide) (by decide)
  exact ⟨h.2.1 "Acme".toList (by decide), h.2.2 (by decide), by decide⟩

/-! ## Identity key of a link-less primary row (C3) -/

/-- C3, behaviour of the code at the failing input: the source computes
    link = current_link or last_valid_link for every row, not only for
    continuation rows, so a link-less primary row that follows a linked
    primary row inherits that link as its dedupe key instead of the
    company-role-location composite; it is then dropped as already
    notified, and the composite key never enters the notified set. -/
theorem linkless_primary_inherits_link :
    (resolveRow exHdrs
      ((build_normalized_rows [exItemAcme]).foldl
        (processRow exHdrs okAll) (initCtx .missing)).prevCompany
      ((build_normalized_rows [exItemAcme]).foldl
        (processRow exHdrs okAll) (initCtx .missing)).lastLink
      (normalizeRow exItemNewCo)).key = normalize_url "https://acme.com/j1".toList ∧
    (resolveRow exHdrs
      ((build_normalized_rows [exItemAcme]).foldl
        (processRow exHdrs okAll) (initCtx .missing)).prevCompany
      ((build_normalized_rows [exItemAcme]).foldl
        (processRow exHdrs okAll) (initCtx .missing)).lastLink
      (normalizeRow exItemNewCo)).key ≠
        normalize_url "NewCo|QA|Ottawa, Canada".toList ∧
    (mainRun [exItemAcme, exItemNewCo] .missing okAll).sends.length = 1 ∧
    normalize_url "NewCo|QA|Ottawa, Canada".toList ∉
      (mainRun [exItemAcme, exItemNewCo] .missing okAll).notified := by
  exact ⟨by decide, by decide, by decide, by decide⟩

/-! ## Recency filter (C5) -/

theorem dropWhile_append_of_all (p : Char → Bool) (ws u : Str)
    (hws : ∀ c ∈ ws, p c = true) : (ws ++ u).dropWhile p = u.dropWhile p := by
  induction ws with
  | nil => rfl
  | cons c rest ih =>
    rw [List.cons_append, List.dropWhile_cons, if_pos (hws c (by simp))]
    exact ih fun d hd => hws d (by simp [hd])

theorem ageTail_iff (s : Str) : ageTail s = true ↔
    ∃ ws k post, s = ws ++ k ++ post ∧ (∀ c ∈ ws, pySpace c = true) ∧
      (k = ['d'] ∨ k = ['d', 'a', 'y'] ∨ k = ['d', 'a', 'y', 's']) ∧
      rBoundary post = true := by
  constructor
  · intro h
    unfold ageTail at h
    simp only [Bool.or_eq_true, Bool.and_eq_true] at h
    have hsp : s.takeWhile pySpace ++ s.dropWhile pySpace = s :=
      List.takeWhile_append_dropWhile pySpace s
    have hws : ∀ c ∈ s.takeWhile pySpace, pySpace c = true :=
      fun c hc => List.mem_takeWhile_imp hc
    rcases h with (⟨hpre, hb⟩ | ⟨hpre, hb⟩) | ⟨hpre, hb⟩
    · obtain ⟨post, hpost⟩ := List.isPrefixOf_iff_prefix.mp hpre
      refine ⟨s.takeWhile pySpace, ['d'], post, ?_, hws, Or.inl rfl, ?_⟩
      · rw [List.append_assoc, hpost, hsp]
      · rw [← hpost] at hb
        simpa using hb
    · obtain ⟨post, hpost⟩ := List.isPrefixOf_iff_prefix.mp hpre
      refine ⟨s.takeWhile pySpace, ['d', 'a', 'y'], post, ?_, hws, Or.inr (Or.inl rfl), ?_⟩
      · rw [List.append_assoc, hpost, hsp]
      · rw [← hpost] at hb
        simpa using hb
    · obtain ⟨post, hpost⟩ := List.isPrefixOf_iff_prefix.mp hpre
      refine ⟨s.takeWhile pySpace, ['d', 'a', 'y', 's'], post, ?_, hws,
        Or.inr (Or.inr rfl), ?_⟩
      · rw [List.append_assoc, hpost, hsp]
      · rw [← hpost] at hb
        simpa using hb
  · rintro ⟨ws, k, post, rfl, hws, hk, hpost⟩
    have hdw : ((ws ++ k ++ post).dropWhile pySpace) = k ++ post := by
      rw [List.append_assoc, dropWhile_append_of_all pySpace ws (k ++ post) hws]
      rcases hk with rfl | rfl | rfl <;>
        · rw [List.cons_append, List.dropWhile_cons, if_neg (by decide)]
    unfold ageTail
    rw [hdw]
    simp only [Bool.or_eq_true, Bool.and_eq_true]
    rcases hk with rfl | rfl | rfl
    · exact Or.inl (Or.inl ⟨List.isPrefixOf_iff_prefix.mpr ⟨post, rfl⟩,
        by simpa using hpost⟩)
    · exact Or.inl (Or.inr ⟨List.isPrefixOf_iff_prefix.mpr ⟨post, rfl⟩,
        by simpa using hpost⟩)
    · exact Or.inr ⟨List.isPrefixOf_iff_prefix.mpr ⟨post, rfl⟩, by simpa using hpost⟩

theorem lastCh_none (pre : Str) : lastCh none pre = pre.getLast? := by
  cases h : pre.getLast? <;> simp [lastCh, h]

theorem lastCh_cons (prev : Option Char) (c : Char) (pre : Str) :
    lastCh prev (c :: pre) = lastCh (some c) pre := by
  cases pre with
  | nil => simp [lastCh]
  | cons d rest =>
    cases h : (d :: rest).getLast? with
    | none =>
      rw [List.getLast?_eq_none_iff] at h
      exact absurd h (by simp)
    | some p => simp [lastCh, List.getLast?_cons_cons, h]

theorem ageScan_iff : ∀ (s : Str) (prev : Option Char),
    ageScan prev s = true ↔
      ∃ pre rest, s = pre ++ '0' :: rest ∧
        leftOk (lastCh prev pre) = true ∧ ageTail rest = true := by
  intro s
  induction s with
  | nil =>
    intro prev
    constructor
    · intro h
      exact absurd h (by simp [ageScan])
    · rintro ⟨pre, rest, h, -, -⟩
      exact absurd h (by simp)
  | cons c s' ih =>
    intro prev
    simp only [ageScan, Bool.or_eq_true, Bool.and_eq_true]
    constructor
    · rintro (⟨⟨hL, hc⟩, hT⟩ | hrec)
      · refine ⟨[], s', ?_, ?_, hT⟩
        · simp [show c = '0' by simpa using hc]
        · simpa [lastCh] using hL
      · obtain ⟨pre, rest, heq, hL, hT⟩ := (ih (some c)).mp hrec
        exact ⟨c :: pre, rest, by simp [heq], by rwa [lastCh_cons], hT⟩
    · rintro ⟨pre, rest, heq, hL, hT⟩
      cases pre with
      | nil =>
        simp only [List.nil_append, List.cons.injEq] at heq
        obtain ⟨rfl, rfl⟩ := heq
        exact Or.inl ⟨⟨by simpa [lastCh] using hL, by simp⟩, hT⟩
      | cons c₀ pre' =>
        simp only [List.cons_append, List.cons.injEq] at heq
        obtain ⟨rfl, rfl⟩ := heq
        exact Or.inr ((ih (some c)).mpr ⟨pre', rest, rfl, by rwa [lastCh_cons] at hL, hT⟩)

theorem rBoundary_eq_head_all (post : Str) :
    rBoundary post = (post.head?.all fun q => !isWordCh q) := by
  cases post <;> simp [rBoundary]

theorem ageRegexSearch_iff (s : Str) : ageRegexSearch s = true ↔ AgeSpec s := by
  unfold ageRegexSearch AgeSpec
  rw [ageScan_iff]
  constructor
  · rintro ⟨pre, rest, rfl, hL, hT⟩
    obtain ⟨ws, k, post, rfl, hws, hk, hpost⟩ := (ageTail_iff rest).mp hT
    refine ⟨pre, ws, k, post, rfl, ?_, hws, hk, ?_⟩
    · rwa [lastCh_none] at hL
    · rwa [rBoundary_eq_head_all] at hpost
  · rintro ⟨pre, ws, k, post, rfl, hL, hws, hk, hpost⟩
    refine ⟨pre, ws ++ k ++ post, rfl, ?_,
      (ageTail_iff _).mpr ⟨ws, k, post, rfl, hws, hk, ?_⟩⟩
    · rwa [lastCh_none]
    · rwa [rBoundary_eq_head_all]

/-- C5: a row's age text qualifies exactly when its lowercase form
    contains, between word boundaries, a zero followed by optional
    whitespace and one of the literal forms d, day, days; concretely 0d
    and 0 days qualify, 3d does not, and an empty age text or a missing
    age column disqualifies. -/
theorem age_filter_spec :
    (∀ age : Str, agePasses age = true ↔ AgeSpec (lowerStr age)) ∧
    agePasses "0d".toList = true ∧
    agePasses "0 days".toList = true ∧
    agePasses "3d".toList = false ∧
    agePasses [] = false ∧
    (∀ item : Row, agePasses (getOpt item none) = false) := by
  refine ⟨fun age => ?_, by decide, by decide, by decide, by decide, fun item => rfl⟩
  unfold agePasses
  rw [Bool.and_eq_true, ageRegexSearch_iff]
  constructor
  · rintro ⟨-, h⟩
    exact h
  · intro h
    refine ⟨?_, h⟩
    obtain ⟨pre, ws, k, post, heq, -⟩ := h
    have hlen := congrArg List.length heq
    simp only [lowerStr, List.length_map, List.length_append, List.length_cons] at hlen
    rw [Bool.not_eq_true', beq_eq_false_iff_ne]
    intro h0
    subst h0
    simp only [List.length_nil, List.length_append, List.length_cons] at hlen
    omega

/-! ## Idempotence of the full pipeline (C1) -/

theorem processRow_prevCompany (hdrs : Hdrs) (ok : Nat → Bool) (ctx : Ctx) (item : Row) :
    (processRow hdrs ok ctx item).prevCompany =
      (ctxStep hdrs (ctx.prevCompany, ctx.lastLink) item).1 :=
  congrArg Prod.fst (processRow_context hdrs ok ctx item)

theorem processRow_lastLink (hdrs : Hdrs) (ok : Nat → Bool) (ctx : Ctx) (item : Row) :
    (processRow hdrs ok ctx item).lastLink =
      (ctxStep hdrs (ctx.prevCompany, ctx.lastLink) item).2 :=
  congrArg Prod.snd (processRow_context hdrs ok ctx item)

theorem ctxStep_pos (hdrs : Hdrs) (pc ll : Option Str) (item : Row)
    (hq : rowQualifies hdrs item = true) :
    ctxStep hdrs (pc, ll) item =
      ((resolveRow hdrs pc ll item).pc, (resolveRow hdrs pc ll item).ll) := by
  unfold ctxStep
  rw [if_pos hq]

theorem ctxStep_neg (hdrs : Hdrs) (pc ll : Option Str) (item : Row)
    (hq : rowQualifies hdrs item = false) :
    ctxStep hdrs (pc, ll) item = (pc, ll) := by
  unfold ctxStep
  rw [if_neg (by simp [hq])]

theorem allKeysFrom_cons (hdrs : Hdrs) (pc ll : Option Str) (item : Row)
    (rest : List Row) :
    allKeysFrom hdrs (pc, ll) (item :: rest) =
      if rowQualifies hdrs item then
        (resolveRow hdrs pc ll item).key ::
          allKeysFrom hdrs (ctxStep hdrs (pc, ll) item) rest
      else allKeysFrom hdrs (pc, ll) rest := rfl

theorem allKeysFrom_cons_pos (hdrs : Hdrs) (pc ll : Option Str) (item : Row)
    (rest : List Row) (hq : rowQualifies hdrs item = true) :
    allKeysFrom hdrs (pc, ll) (item :: rest) =
      (resolveRow hdrs pc ll item).key ::
        allKeysFrom hdrs (ctxStep hdrs (pc, ll) item) rest := by
  rw [allKeysFrom_cons, if_pos hq]

theorem allKeysFrom_cons_neg (hdrs : Hdrs) (pc ll : Option Str) (item : Row)
    (rest : List Row) (hq : rowQualifies hdrs item = false) :
    allKeysFrom hdrs (pc, ll) (item :: rest) = allKeysFrom hdrs (pc, ll) rest := by
  rw [allKeysFrom_cons, if_neg (by simp [hq])]

/-- With an always-successful sink, each step unions the computed key
    into the notified set (known keys are re-inserted without effect). -/
theorem processRow_notified_okAll (hdrs : Hdrs) (ctx : Ctx) (item : Row) :
    (processRow hdrs okAll ctx item).notified =
      if rowQualifies hdrs item then
        insert (resolveRow hdrs ctx.prevCompany ctx.lastLink item).key ctx.notified
      else ctx.notified := by
  cases hq : rowQualifies hdrs item with
  | false => rw [processRow_not_qualifying _ _ _ _ hq]; simp
  | true =>
    by_cases hk : (resolveRow hdrs ctx.prevCompany ctx.lastLink item).key ∈ ctx.notified
    · rw [processRow_skip _ _ _ _ hq hk]
      simp [Finset.insert_eq_self.mpr hk]
    · rw [processRow_send_ok _ _ _ _ hq hk rfl]
      simp

theorem foldl_notified_okAll (hdrs : Hdrs) :
    ∀ (rows : List Row) (ctx : Ctx),
      (rows.foldl (processRow hdrs okAll) ctx).notified =
        ctx.notified ∪
          (allKeysFrom hdrs (ctx.prevCompany, ctx.lastLink) rows).toFinset := by
  intro rows
  induction rows with
  | nil => intro ctx; simp [allKeysFrom]
  | cons item rest ih =>
    intro ctx
    rw [List.foldl_cons, ih (processRow hdrs okAll ctx item),
      processRow_notified_okAll,
      show ((processRow hdrs okAll ctx item).prevCompany,
          (processRow hdrs okAll ctx item).lastLink) =
        ctxStep hdrs (ctx.prevCompany, ctx.lastLink) item from
        processRow_context hdrs okAll ctx item]
    by_cases hq : rowQualifies hdrs item = true
    · rw [if_pos hq, allKeysFrom_cons_pos hdrs _ _ item rest hq]
      ext x
      simp only [Finset.mem_union, Finset.mem_insert, List.toFinset_cons,
        List.mem_toFinset]
      tauto
    · have hq' : rowQualifies hdrs item = false := Bool.eq_false_iff.mpr hq
      rw [if_neg hq, allKeysFrom_cons_neg hdrs _ _ item rest hq',
        ctxStep_neg hdrs _ _ item hq']

/-- When every key the rows would compute is already notified, the loop
    attempts no dispatch and changes nothing but the contexts. -/
theorem foldl_no_sends (hdrs : Hdrs) (ok : Nat → Bool) :
    ∀ (rows : List Row) (ctx : Ctx),
      (∀ k ∈ allKeysFrom hdrs (ctx.prevCompany, ctx.lastLink) rows, k ∈ ctx.notified) →
      (rows.foldl (processRow hdrs ok) ctx).sends = ctx.sends ∧
      (rows.foldl (processRow hdrs ok) ctx).notified = ctx.notified := by
  intro rows
  induction rows with
  | nil => intro ctx _; exact ⟨rfl, rfl⟩
  | cons item rest ih =>
    intro ctx hall
    rw [List.foldl_cons]
    cases hq : rowQualifies hdrs item with
    | false =>
      rw [processRow_not_qualifying _ _ _ _ hq]
      apply ih
      intro k hk
      apply hall
      rw [allKeysFrom_cons_neg hdrs _ _ item rest hq]
      exact hk
    | true =>
      have hkeymem : (resolveRow hdrs ctx.prevCompany ctx.lastLink item).key ∈
          ctx.notified := by
        apply hall
        rw [allKeysFrom_cons_pos hdrs _ _ item rest hq]
        exact List.mem_cons_self _ _
      rw [processRow_skip _ _ _ _ hq hkeymem]
      apply ih
      intro k hk
      apply hall
      rw [allKeysFrom_cons_pos hdrs _ _ item rest hq]
      apply List.mem_cons_of_mem
      rwa [ctxStep_pos hdrs _ _ item hq]

/-- With an always-successful sink, the loop leaves the store either
    saved from the final notified set or completely untouched. -/
theorem foldl_store_okAll (hdrs : Hdrs) :
    ∀ (rows : List Row) (ctx : Ctx),
      (rows.foldl (processRow hdrs okAll) ctx).store =
        save_notified (rows.foldl (processRow hdrs okAll) ctx).notified ∨
      ((rows.foldl (processRow hdrs okAll) ctx).store = ctx.store ∧
       (rows.foldl (processRow hdrs okAll) ctx).notified = ctx.notified) := by
  intro rows
  induction rows with
  | nil => intro ctx; exact Or.inr ⟨rfl, rfl⟩
  | cons item rest ih =>
    intro ctx
    rw [List.foldl_cons]
    cases hq : rowQualifies hdrs item with
    | false =>
      rw [processRow_not_qualifying _ _ _ _ hq]
      exact ih ctx
    | true =>
      by_cases hk : (resolveRow hdrs ctx.prevCompany ctx.lastLink item).key ∈ ctx.notified
      · rw [processRow_skip _ _ _ _ hq hk]
        rcases ih _ with h | ⟨h1, h2⟩
        · exact Or.inl h
        · exact Or.inr ⟨h1, h2⟩
      · rw [processRow_send_ok _ _ _ _ hq hk rfl]
        rcases ih _ with h | ⟨h1, h2⟩
        · exact Or.inl h
        · exact Or.inl (by rw [h1, h2])

/-- C1 (amended): when every dedupe key computed from the rows is a fixed
    point of URL normalization (as holds for keys free of HTML escape
    sequences), a second run over the same rows, starting from the store
    persisted by a fully successful first run, attempts zero dispatches.
    The unamended claim fails because normalization (entity unescaping)
    is not idempotent; see the counterexample. -/
theorem pipeline_idempotent (raw_rows : List Row) (store0 : StoreFile)
    (hfix : ∀ k ∈ allKeys raw_rows, normalize_url k = k) :
    (mainRun raw_rows (mainRun raw_rows store0 okAll).store okAll).sends = [] := by
  by_cases hr : raw_rows = []
  · subst hr; rfl
  · have hbeq : ¬((raw_rows == []) = true) := by simp [hr]
    have hK : allKeys raw_rows =
        allKeysFrom (resolveHdrs (build_normalized_rows raw_rows)) (none, none)
          (build_normalized_rows raw_rows) := rfl
    unfold mainRun
    rw [if_neg hbeq, if_neg hbeq]
    set hdrs := resolveHdrs (build_normalized_rows raw_rows) with hhdrs
    set nrows := build_normalized_rows raw_rows with hnrows
    set c1 := nrows.foldl (processRow hdrs okAll) (initCtx store0) with hc1
    have h1 : c1.notified = load_notified store0 ∪ (allKeys raw_rows).toFinset := by
      rw [hc1, foldl_notified_okAll hdrs nrows (initCtx store0)]
      rfl
    have hKsub : ∀ k ∈ allKeys raw_rows, k ∈ load_notified c1.store := by
      rcases foldl_store_okAll hdrs nrows (initCtx store0) with hA | ⟨hB1, hB2⟩
      · intro k hk
        rw [← hc1] at hA
        rw [hA, load_save]
        have hk1 : k ∈ c1.notified := by
          rw [h1]
          exact Finset.mem_union_right _ (List.mem_toFinset.mpr hk)
        refine Finset.mem_image.mpr ⟨normalize_url k,
          Finset.mem_image.mpr ⟨k, hk1, rfl⟩, ?_⟩
        rw [hfix k hk, hfix k hk]
      · intro k hk
        rw [← hc1] at hB1 hB2
        have hsub : (allKeys raw_rows).toFinset ⊆ load_notified store0 := by
          rw [h1] at hB2
          intro x hx
          have : x ∈ load_notified store0 ∪ (allKeys raw_rows).toFinset :=
            Finset.mem_union_right _ hx
          rwa [hB2] at this
        rw [hB1]
        exact hsub (List.mem_toFinset.mpr hk)
    exact (foldl_no_sends hdrs okAll nrows (initCtx c1.store)
      (fun k hk => hKsub k (by rw [hK]; exact hk))).1

/-- Counterexample for C1 as stated: for the document whose one
    qualifying link holds a triply escaped ampersand entity, the first
    run (all dispatches succeeding) notifies it, yet a second run over
    the unchanged document and the store persisted by the first run
    dispatches it again. -/
theorem pipeline_idempotent_cex :
    (pipelineMarkdown cexDoc .missing okAll).map (fun c1 => c1.sends.length) = some 1 ∧
    ((pipelineMarkdown cexDoc .missing okAll).bind fun c1 =>
      (pipelineMarkdown cexDoc c1.store okAll).map fun c2 => c2.sends.length) =
      some 1 := by
  exact ⟨by decide, by decide⟩

/-- Witness for C1 at the Acme row, whose key is normalization-fixed. -/
theorem pipeline_idempotent_witness :
    (mainRun [exItemAcme] (mainRun [exItemAcme] .missing okAll).store okAll).sends = [] :=
  pipeline_idempotent [exItemAcme] .missing (by decide)

end NotifyIntern
